import Mathlib

/-!
Verification of the similarity-matrix construction and two-phase
clustering / label-propagation algorithm of `GRN.py`
(`makeJaccardMat`, `clustNetwork_Adj`).

The Python code is shallowly embedded: numpy float matrices become
`List (List ℚ)`, the heterogeneous Python label list (int cluster ids
mixed with strings after relabelling) becomes `List Lbl`, and Python
runtime exceptions (IndexError from an out-of-bounds read, ValueError
from `np.argmax` on an empty array, ZeroDivisionError) become an
`Except PyError` result.
-/

/-- A label held in the Python list `y` of `clustNetwork_Adj`: either a raw
integer cluster id produced by the clustering step, or a string (a gene
symbol, or the placeholder `'none'`). -/
inductive Lbl where
  | raw : Nat → Lbl
  | sym : String → Lbl
deriving DecidableEq, Repr

/-- The Python placeholder string `'none'` as a label. -/
def noneLbl : Lbl := Lbl.sym "none"

/-- Python runtime exceptions that the embedded code can raise. -/
inductive PyError where
  | indexError : PyError
  | valueError : PyError
  | zeroDivisionError : PyError
deriving DecidableEq, Repr

/-- `y.count('none')` from the source: the number of placeholder entries. -/
def countNone (y : List Lbl) : Nat :=
  (y.filter (fun l => decide (l = noneLbl))).length

/-- Matrix entry access `(M.getD i []).getD j 0`; out-of-range reads default
to `0` (bounds are tracked separately where they matter). -/
def entry (M : List (List ℚ)) (i j : Nat) : ℚ :=
  (M.getD i []).getD j 0

/-- `np.argsort(-TOM[i,:])` from the source: the indices `0..len(v)-1`
sorted by descending value of `v` (a stable sort; the source's quicksort
fixes no particular tie order, the embedding uses the stable one). -/
def argsortDesc (v : List ℚ) : List Nat :=
  List.insertionSort (fun a b => v.getD b 0 ≤ v.getD a 0) (List.range v.length)

/-- The inner `while b>=0` scan of `clustNetwork_Adj` (lines 173-186 of
`GRN.py`), scanning the ranking `sortlabs` from position `b` upward:

```
while b>=0:
    ltest=y[sortlabs[b]]
    if ltest=='none':
        if b>len(y):
            yil='none'
            b=-1
        else:
            b+=1
    else:
        yil=ltest
        b=-1
```

`rest` is `sortlabs.drop b`; reading `sortlabs[b]` past the end of the
ranking, or `y[idx]` past the end of `y`, is Python's IndexError. -/
def scanLoopAux (y : List Lbl) : Nat → List Nat → Except PyError Lbl
  | _, [] => .error .indexError
  | b, idx :: rest =>
    match y.get? idx with
    | Option.none => .error .indexError
    | Option.some ltest =>
      if ltest = noneLbl then
        if b > y.length then .ok noneLbl
        else scanLoopAux y (b + 1) rest
      else .ok ltest

/-- The full scan of a ranking, starting at `b=0`. -/
def scanLoop (y : List Lbl) (sortlabs : List Nat) : Except PyError Lbl :=
  scanLoopAux y 0 sortlabs

/-- One body of `for i in range(len(y))` in the propagation pass: if `y[i]`
is the placeholder, scan `np.argsort(-TOM[i,:])` and store the result. -/
def passStep (TOM : List (List ℚ)) (y : List Lbl) (i : Nat) :
    Except PyError (List Lbl) :=
  if y.getD i (Lbl.raw 0) = noneLbl then
    match scanLoop y (argsortDesc (TOM.getD i [])) with
    | .error e => .error e
    | .ok yil => .ok (y.set i yil)
  else .ok y

/-- The pass `for i in range(len(y))`, run over an explicit index list
(the source computes `range(len(y))` once; `y`'s length never changes). -/
def assignPassAux (TOM : List (List ℚ)) : List Nat → List Lbl →
    Except PyError (List Lbl)
  | [], y => .ok y
  | i :: rest, y =>
    match passStep TOM y i with
    | .error e => .error e
    | .ok y2 => assignPassAux TOM rest y2

/-- One full pass of the label-propagation loop. -/
def assignPass (TOM : List (List ℚ)) (y : List Lbl) :
    Except PyError (List Lbl) :=
  assignPassAux TOM (List.range y.length) y

/-- The `while del0:` loop of `clustNetwork_Adj` (lines 166-189).  The
source tracks `del0 = n0 - y.count('none')`, the progress made by the last
pass, and loops while it is nonzero; a pass never increases the placeholder
count (placeholders are only overwritten), so the loop body reruns exactly
while a pass strictly decreased the count.  The source additionally runs
one final pass that made no progress before exiting; on a vector whose
count already reached zero that pass touches nothing, and a completed pass
with no progress leaves the vector unchanged, so the returned value is the
same. -/
def propagateLoop (TOM : List (List ℚ)) (y : List Lbl) :
    Except PyError (List Lbl) :=
  if 0 < countNone y then
    match assignPass TOM y with
    | .error e => .error e
    | .ok y2 =>
      if h : countNone y2 < countNone y then propagateLoop TOM y2
      else .ok y2
  else .ok y
termination_by countNone y
decreasing_by exact h

/-- `N=(A>0).sum(axis=0)` (line 140): per-column count of strictly positive
entries, the node degree vector. -/
def degrees (A : List (List ℚ)) : List Nat :=
  match A with
  | [] => []
  | r0 :: _ =>
    (List.range r0.length).map
      (fun j => (A.filter (fun row => decide (0 < row.getD j 0))).length)

/-- `np.percentile(l, q)` with the default linear interpolation: with the
values sorted ascending as `s`, the result is `s[⌊p⌋] + (p-⌊p⌋)*(s[⌊p⌋+1]
- s[⌊p⌋])` where `p = q*(n-1)/100`. -/
def percentile (l : List ℚ) (q : ℚ) : ℚ :=
  if l.length = 0 then 0
  else
    let s := List.insertionSort (fun a b : ℚ => a ≤ b) l
    let p : ℚ := q * ((l.length : ℚ) - 1) / 100
    let i0 : Nat := (⌊p⌋).toNat
    (s.getD i0 0) + (p - (i0 : ℚ)) * (s.getD (i0 + 1) (s.getD i0 0) - s.getD i0 0)

/-- `topnodes=(N>cutoff)*(N<np.percentile(N,99.9))` (lines 141-142): a node
is selected iff its degree exceeds the `(100-thr)`-th percentile and is
below the 99.9th percentile of the degree vector. -/
def topSel (A : List (List ℚ)) (thr : ℚ) : List Bool :=
  let N := degrees A
  let lo := percentile (N.map (fun d : Nat => (d : ℚ))) (100 - thr)
  let hi := percentile (N.map (fun d : Nat => (d : ℚ))) (999 / 10)
  N.map (fun d : Nat => decide (lo < (d : ℚ)) && decide ((d : ℚ) < hi))

/-- `A2=A*topnodes.reshape(n,1)*topnodes.reshape(1,n)` (line 144): zero out
every entry whose row or column is not selected. -/
def zeroFilter (A : List (List ℚ)) (top : List Bool) : List (List ℚ) :=
  A.mapIdx (fun i row =>
    row.mapIdx (fun j v =>
      v * (if top.getD i false then 1 else 0) * (if top.getD j false then 1 else 0)))

/-- The filtered matrix handed to the clustering step. -/
def filteredMat (A : List (List ℚ)) (thr : ℚ) : List (List ℚ) :=
  zeroFilter A (topSel A thr)

/-- Accumulator loop behind `np.argmax`: current position, best position
and best value so far; a strictly greater value replaces the best, so the
first position attaining the maximum wins. -/
def argmaxAux : List Nat → Nat → Nat → Nat → Nat
  | [], _, bi, _ => bi
  | a :: rest, idx, bi, bv =>
    if bv < a then argmaxAux rest (idx + 1) idx a
    else argmaxAux rest (idx + 1) bi bv

/-- `np.argmax(v)` (line 153): the first index of the maximum value;
`np.argmax` of an empty array is Python's ValueError, modelled as no
result. -/
def argmaxList : List Nat → Option Nat
  | [] => Option.none
  | a :: rest => Option.some (argmaxAux rest 1 0 a)

/-- `N*(yarr==i)` (line 153): the degree vector masked to the nodes whose
raw cluster label is `i`. -/
def maskDeg (N : List Nat) (yarr : List Nat) (i : Nat) : List Nat :=
  N.zipWith (fun d l => if l = i then d else 0) yarr

/-- One iteration of the relabelling loop (lines 152-163): find the top
node of raw cluster `i` and rename every member of the cluster with its
gene symbol, or with the placeholder `'none'` if the top node is not
selected.  `yarr` is the fixed array of raw labels computed before the
loop; `y` the mutating label list.  Out-of-range reads of `topnodes` or
`names` are IndexError. -/
def relabelCluster (N : List Nat) (topnodes : List Bool) (names : List String)
    (yarr : List Nat) (i : Nat) (y : List Lbl) : Except PyError (List Lbl) :=
  match argmaxList (maskDeg N yarr i) with
  | Option.none => .error .valueError
  | Option.some topind =>
    match topnodes.get? topind with
    | Option.none => .error .indexError
    | Option.some true =>
      match names.get? topind with
      | Option.none => .error .indexError
      | Option.some nm =>
        .ok (y.map (fun l => if l = Lbl.raw i then Lbl.sym nm else l))
    | Option.some false =>
      .ok (y.map (fun l => if l = Lbl.raw i then noneLbl else l))

/-- The full relabelling loop `for i in range(k)`. -/
def relabelAll (N : List Nat) (topnodes : List Bool) (names : List String)
    (yarr : List Nat) (k : Nat) (y : List Lbl) : Except PyError (List Lbl) :=
  (List.range k).foldlM (fun y i => relabelCluster N topnodes names yarr i y) y

/-- `clustNetwork_Adj(A,TOM,names,thr,k)` (lines 133-189).  The spectral
clustering call is the spec's pluggable clustering capability and is an
external collaborator; it enters as the function argument `fitPredict`
(`sc.fit_predict(A2)` on line 146). -/
def clustNetwork_Adj (fitPredict : List (List ℚ) → List Nat)
    (A TOM : List (List ℚ)) (names : List String) (thr : ℚ) (k : Nat) :
    Except PyError (List Lbl) :=
  let A2 := filteredMat A thr
  let y0 := fitPredict A2
  match relabelAll (degrees A) (topSel A thr) names y0 k (y0.map Lbl.raw) with
  | .error e => .error e
  | .ok y1 => propagateLoop TOM y1

/-- Left-to-right traversal behind `df['symb'].unique()`: keep a symbol the
first time it is seen, skip later occurrences. -/
def uniqueFirstAux (seen : List String) : List String → List String
  | [] => []
  | g :: rest =>
    if g ∈ seen then uniqueFirstAux seen rest
    else g :: uniqueFirstAux (g :: seen) rest

/-- `df['symb'].unique()`: the unique gene symbols of the association
table in first-appearance order. -/
def uniqueFirst (l : List String) : List String := uniqueFirstAux [] l

/-- `genedict[gene]=set(pub.pubid.tolist())` (lines 98-100): the set of
publication ids in which a gene appears. -/
def pubSet (df : List (String × Nat)) (g : String) : Finset Nat :=
  ((df.filter (fun r => decide (r.1 = g))).map Prod.snd).toFinset

/-- The Jaccard computation of line 104-105:
`len(intersection) / (1.0*len(union))`, Python's ZeroDivisionError when
the union is empty. -/
def jacE (df : List (String × Nat)) (gi gj : String) : Except PyError ℚ :=
  let inter := (pubSet df gi ∩ pubSet df gj).card
  let uni := (pubSet df gi ∪ pubSet df gj).card
  if uni = 0 then .error .zeroDivisionError
  else .ok ((inter : ℚ) / (uni : ℚ))

/-- `A[i,j]=v` on a list-of-lists matrix; writes outside the allocated
shape are dropped (the source never performs any). -/
def setMat (A : List (List ℚ)) (i j : Nat) (v : ℚ) : List (List ℚ) :=
  A.set i ((A.getD i []).set j v)

/-- The value `jacE` returns when the union is nonempty. -/
def jacQ (df : List (String × Nat)) (gi gj : String) : ℚ :=
  ((pubSet df gi ∩ pubSet df gj).card : ℚ) /
    ((pubSet df gi ∪ pubSet df gj).card : ℚ)

/-- Body of the inner loop `for j in range(i)` of `makeJaccardMat`
(lines 103-107): compute the Jaccard index of genes `i` and `j` and write
it into both `A[i,j]` and `A[j,i]`. -/
def jacInnerStep (df : List (String × Nat)) (ugenes : List String) (i : Nat)
    (A : List (List ℚ)) (j : Nat) : Except PyError (List (List ℚ)) :=
  match jacE df (ugenes.getD i "") (ugenes.getD j "") with
  | .error e => .error e
  | .ok v => .ok (setMat (setMat A i j v) j i v)

/-- Body of the outer loop `for i in range(len(ugenes))`. -/
def jacOuterStep (df : List (String × Nat)) (ugenes : List String)
    (A : List (List ℚ)) (i : Nat) : Except PyError (List (List ℚ)) :=
  (List.range i).foldlM (jacInnerStep df ugenes i) A

/-- `makeJaccardMat(df)` (lines 90-108): allocate an `n×n` zero matrix over
the unique genes and fill both `(i,j)` and `(j,i)` with the Jaccard index
of the two genes' publication sets, for every `j < i`. -/
def makeJaccardMat (df : List (String × Nat)) :
    Except PyError (List (List ℚ)) :=
  let ugenes := uniqueFirst (df.map Prod.fst)
  let n := ugenes.length
  let A0 := List.replicate n (List.replicate n (0 : ℚ))
  (List.range n).foldlM (jacOuterStep df ugenes) A0

/-- Shape invariant of the matrix being filled: `n` rows of length `n`. -/
def MatShape (n : Nat) (A : List (List ℚ)) : Prop :=
  A.length = n ∧ ∀ row ∈ A, row.length = n

/-- State of the matrix during the double loop of `makeJaccardMat`: outer
rows before `i` fully processed, and within row `i` the pairs `(i,j)` and
`(j,i)` written for `j < s`; everything else still zero. -/
def JacPartial (df : List (String × Nat)) (i s : Nat)
    (A : List (List ℚ)) : Prop :=
  let u := uniqueFirst (df.map Prod.fst)
  MatShape u.length A ∧
    ∀ a b, entry A a b =
      if (a ≠ b ∧ a < i ∧ b < i) ∨ (a = i ∧ b < s) ∨ (b = i ∧ a < s) then
        jacQ df (u.getD a "") (u.getD b "")
      else 0

/-- A well-formed output label: the placeholder `'none'` or one of the
gene symbols of `names`. -/
def GoodLbl (names : List String) (l : Lbl) : Prop :=
  l = noneLbl ∨ ∃ s ∈ names, l = Lbl.sym s

/-! ### Shared lemmas -/

theorem countNone_eq_zero (y : List Lbl) : countNone y = 0 ↔ noneLbl ∉ y := by
  simp only [countNone, List.length_eq_zero, List.filter_eq_nil_iff,
    decide_eq_true_eq]
  exact ⟨fun h hm => h _ hm rfl, fun h a ha ha' => h (ha' ▸ ha)⟩

theorem propagateLoop_eq_self (TOM : List (List ℚ)) (y : List Lbl)
    (h : countNone y = 0) : propagateLoop TOM y = .ok y := by
  rw [propagateLoop]
  simp [h]

theorem getD_lt {α : Type} (l : List α) (d : α) {n : Nat} (h : n < l.length) :
    l.getD n d = l.get ⟨n, h⟩ := by
  simp [List.getD_eq_getElem?_getD, List.getElem?_eq_getElem h]

theorem getD_mem {α : Type} {l : List α} {d : α} {n : Nat}
    (h : n < l.length) : l.getD n d ∈ l := by
  rw [getD_lt l d h]
  exact List.get_mem l n h

theorem getD_set_self {α : Type} {l : List α} {i : Nat} {a d : α}
    (h : i < l.length) : (l.set i a).getD i d = a := by
  simp [List.getD_eq_getElem?_getD, List.getElem?_set_self h]

theorem getD_set_ne {α : Type} {l : List α} {i j : Nat} {a d : α}
    (h : i ≠ j) : (l.set i a).getD j d = l.getD j d := by
  simp [List.getD_eq_getElem?_getD, List.getElem?_set_ne h]

theorem matShape_setMat {n : Nat} {A : List (List ℚ)} (h : MatShape n A)
    {i j : Nat} (hi : i < n) (v : ℚ) : MatShape n (setMat A i j v) := by
  obtain ⟨hlen, hrow⟩ := h
  constructor
  · simp [setMat, hlen]
  · intro row hmem
    rcases List.mem_or_eq_of_mem_set hmem with hmem' | rfl
    · exact hrow _ hmem'
    · rw [List.length_set]
      exact hrow _ (getD_mem (by rw [hlen]; exact hi))

theorem entry_setMat_self {n : Nat} {A : List (List ℚ)} (h : MatShape n A)
    {i j : Nat} (hi : i < n) (hj : j < n) (v : ℚ) :
    entry (setMat A i j v) i j = v := by
  obtain ⟨hlen, hrow⟩ := h
  have hiA : i < A.length := by rw [hlen]; exact hi
  have hjA : j < (A.getD i []).length := by
    rw [hrow _ (getD_mem hiA)]
    exact hj
  rw [entry, setMat, getD_set_self hiA, getD_set_self hjA]

theorem entry_setMat_ne {A : List (List ℚ)} {i j a b : Nat} (v : ℚ)
    (h : a ≠ i ∨ b ≠ j) : entry (setMat A i j v) a b = entry A a b := by
  rcases h with h | h
  · rw [entry, setMat, getD_set_ne (Ne.symm h), entry]
  · rw [entry, setMat]
    rcases eq_or_ne a i with rfl | hne
    · by_cases hlen : a < A.length
      · rw [getD_set_self hlen, getD_set_ne (Ne.symm h), entry]
      · rw [List.set_eq_of_length_le (le_of_not_lt hlen), entry]
    · rw [getD_set_ne (Ne.symm hne), entry]

theorem uniqueFirstAux_subset {seen : List String} {l : List String}
    {g : String} (h : g ∈ uniqueFirstAux seen l) : g ∈ l := by
  induction l generalizing seen with
  | nil => simp [uniqueFirstAux] at h
  | cons x rest ih =>
    rw [uniqueFirstAux] at h
    by_cases hx : x ∈ seen
    · rw [if_pos hx] at h
      exact List.mem_cons_of_mem _ (ih h)
    · rw [if_neg hx] at h
      rcases List.mem_cons.mp h with rfl | h'
      · exact List.mem_cons_self _ _
      · exact List.mem_cons_of_mem _ (ih h')

theorem pubSet_nonempty {df : List (String × Nat)} {g : String}
    (h : g ∈ uniqueFirst (df.map Prod.fst)) : (pubSet df g).Nonempty := by
  have hmap : g ∈ df.map Prod.fst := uniqueFirstAux_subset h
  obtain ⟨r, hr, hfst⟩ := List.mem_map.mp hmap
  refine ⟨r.2, ?_⟩
  rw [pubSet, List.mem_toFinset]
  exact List.mem_map.mpr ⟨r, List.mem_filter.mpr ⟨hr, by simp [hfst]⟩, rfl⟩

theorem jacE_ok {df : List (String × Nat)} {gi gj : String}
    (hi : gi ∈ uniqueFirst (df.map Prod.fst))
    (hj : gj ∈ uniqueFirst (df.map Prod.fst)) :
    jacE df gi gj = .ok (jacQ df gi gj) := by
  have hpos : 0 < (pubSet df gi ∪ pubSet df gj).card :=
    Finset.card_pos.mpr ((pubSet_nonempty hi).mono Finset.subset_union_left)
  rw [jacE, if_neg (Nat.pos_iff_ne_zero.mp hpos), jacQ]

theorem jacQ_comm (df : List (String × Nat)) (gi gj : String) :
    jacQ df gi gj = jacQ df gj gi := by
  rw [jacQ, jacQ, Finset.inter_comm, Finset.union_comm]

theorem entry_replicate (n a b : Nat) :
    entry (List.replicate n (List.replicate n (0 : ℚ))) a b = 0 := by
  simp only [entry, List.getD_eq_getElem?_getD, List.getElem?_replicate]
  by_cases h : a < n <;> by_cases h' : b < n <;> simp [h, h']

theorem jacInnerStep_ok {df : List (String × Nat)} {i s : Nat}
    {A : List (List ℚ)} (hA : JacPartial df i s A)
    (hi : i < (uniqueFirst (df.map Prod.fst)).length) (hs : s < i) :
    ∃ A2, jacInnerStep df (uniqueFirst (df.map Prod.fst)) i A s = .ok A2 ∧
      JacPartial df i (s + 1) A2 := by
  obtain ⟨hshape, hent⟩ := hA
  have hsn : s < (uniqueFirst (df.map Prod.fst)).length := lt_trans hs hi
  have hgi : (uniqueFirst (df.map Prod.fst)).getD i "" ∈
      uniqueFirst (df.map Prod.fst) := getD_mem hi
  have hgs : (uniqueFirst (df.map Prod.fst)).getD s "" ∈
      uniqueFirst (df.map Prod.fst) := getD_mem hsn
  have hne : i ≠ s := Nat.ne_of_gt hs
  refine ⟨_, by rw [jacInnerStep, jacE_ok hgi hgs], ?_, ?_⟩
  · exact matShape_setMat (matShape_setMat hshape hi _) hsn _
  · intro a b
    by_cases hA1 : a = i ∧ b = s
    · obtain ⟨rfl, rfl⟩ := hA1
      rw [entry_setMat_ne _ (Or.inl hne), entry_setMat_self hshape hi hsn,
        if_pos (Or.inr (Or.inl ⟨rfl, by omega⟩))]
    · by_cases hA2 : a = s ∧ b = i
      · obtain ⟨rfl, rfl⟩ := hA2
        rw [entry_setMat_self (matShape_setMat hshape hi _) hsn hi,
          if_pos (Or.inr (Or.inr ⟨rfl, by omega⟩))]
        exact jacQ_comm df _ _
      · have hne1 : a ≠ s ∨ b ≠ i := by
          by_contra hc
          push_neg at hc
          exact hA2 ⟨hc.1, hc.2⟩
        have hne2 : a ≠ i ∨ b ≠ s := by
          by_contra hc
          push_neg at hc
          exact hA1 ⟨hc.1, hc.2⟩
        rw [entry_setMat_ne _ hne1, entry_setMat_ne _ hne2, hent a b]
        refine if_congr ?_ rfl rfl
        constructor <;> intro hc <;> omega

theorem jacInner_fold {df : List (String × Nat)} {i : Nat}
    (hi : i < (uniqueFirst (df.map Prod.fst)).length) :
    ∀ s, s ≤ i → ∀ A, JacPartial df i 0 A →
      ∃ A2, (List.range s).foldlM
          (jacInnerStep df (uniqueFirst (df.map Prod.fst)) i) A = .ok A2 ∧
        JacPartial df i s A2 := by
  intro s
  induction s with
  | zero => exact fun _ A hA => ⟨A, rfl, hA⟩
  | succ s ih =>
    intro hs A hA
    obtain ⟨A1, hfold, hA1⟩ := ih (Nat.le_of_succ_le hs) A hA
    obtain ⟨A2, hstep, hA2⟩ := jacInnerStep_ok hA1 hi (Nat.lt_of_succ_le hs)
    refine ⟨A2, ?_, hA2⟩
    rw [List.range_succ, List.foldlM_append, hfold]
    show List.foldlM (jacInnerStep df (uniqueFirst (df.map Prod.fst)) i)
      A1 [s] = Except.ok A2
    rw [List.foldlM_cons, hstep]
    rfl

theorem jacPartial_step {df : List (String × Nat)} {t : Nat}
    {A : List (List ℚ)} (h : JacPartial df t t A) :
    JacPartial df (t + 1) 0 A := by
  obtain ⟨hs, he⟩ := h
  refine ⟨hs, fun a b => ?_⟩
  rw [he a b]
  refine if_congr ?_ rfl rfl
  constructor <;> intro hc <;> omega

theorem jacOuter_fold (df : List (String × Nat)) :
    ∀ t, t ≤ (uniqueFirst (df.map Prod.fst)).length →
      ∃ A2, (List.range t).foldlM
          (jacOuterStep df (uniqueFirst (df.map Prod.fst)))
          (List.replicate (uniqueFirst (df.map Prod.fst)).length
            (List.replicate (uniqueFirst (df.map Prod.fst)).length (0 : ℚ)))
          = .ok A2 ∧
        JacPartial df t 0 A2 := by
  intro t
  induction t with
  | zero =>
    intro _
    refine ⟨_, rfl, ⟨by simp, fun row hrow => ?_⟩, fun a b => ?_⟩
    · rw [List.eq_of_mem_replicate hrow]
      simp
    · rw [entry_replicate, if_neg (by omega)]
  | succ t ih =>
    intro ht
    obtain ⟨A1, hfold, hA1⟩ := ih (Nat.le_of_succ_le ht)
    obtain ⟨A2, hstep, hA2⟩ :=
      jacInner_fold (Nat.lt_of_succ_le ht) t (le_refl t) A1 hA1
    refine ⟨A2, ?_, jacPartial_step hA2⟩
    rw [List.range_succ, List.foldlM_append, hfold]
    show List.foldlM (jacOuterStep df (uniqueFirst (df.map Prod.fst)))
      A1 [t] = Except.ok A2
    rw [List.foldlM_cons]
    show jacOuterStep df (uniqueFirst (df.map Prod.fst)) A1 t >>=
      (fun b => List.foldlM _ b []) = Except.ok A2
    rw [jacOuterStep, hstep]
    rfl

/-- `makeJaccardMat` never fails, and the returned matrix is the `n×n`
matrix with zero diagonal and the pairwise Jaccard indices off-diagonal. -/
theorem makeJaccardMat_ok (df : List (String × Nat)) :
    ∃ M, makeJaccardMat df = .ok M ∧
      MatShape (uniqueFirst (df.map Prod.fst)).length M ∧
      ∀ a b, entry M a b =
        if a ≠ b ∧ a < (uniqueFirst (df.map Prod.fst)).length ∧
            b < (uniqueFirst (df.map Prod.fst)).length then
          jacQ df ((uniqueFirst (df.map Prod.fst)).getD a "")
            ((uniqueFirst (df.map Prod.fst)).getD b "")
        else 0 := by
  obtain ⟨M, hM, hs, he⟩ :=
    jacOuter_fold df (uniqueFirst (df.map Prod.fst)).length (le_refl _)
  refine ⟨M, hM, hs, fun a b => ?_⟩
  rw [he a b]
  refine if_congr ?_ rfl rfl
  constructor <;> intro hc <;> omega

theorem entry_zeroFilter (A : List (List ℚ)) (top : List Bool) (i j : Nat) :
    entry (zeroFilter A top) i j =
      entry A i j * (if top.getD i false then 1 else 0) *
        (if top.getD j false then 1 else 0) := by
  simp only [entry, zeroFilter, List.getD_eq_getElem?_getD,
    List.getElem?_mapIdx]
  cases hA : A[i]? with
  | none => simp
  | some row =>
    simp only [Option.map_some', Option.getD_some]
    cases hr : row[j]? with
    | none => simp [List.getElem?_mapIdx, hr]
    | some v => simp [List.getElem?_mapIdx, hr]

theorem degrees_getD (A : List (List ℚ)) {j : Nat}
    (hj : j < (degrees A).length) :
    (degrees A).getD j 0 =
      (A.filter (fun row => decide (0 < row.getD j 0))).length := by
  match A with
  | [] => simp [degrees] at hj
  | r0 :: rest =>
    rw [degrees] at hj ⊢
    have hj2 : j < r0.length := by simpa using hj
    simp [List.getD_eq_getElem?_getD, List.getElem?_range, hj2]

theorem topSel_getD (A : List (List ℚ)) (thr : ℚ) {j : Nat}
    (hj : j < (degrees A).length) :
    (topSel A thr).getD j false =
      (decide (percentile ((degrees A).map (fun d : Nat => (d : ℚ)))
            (100 - thr) < ((degrees A).getD j 0 : ℚ)) &&
        decide (((degrees A).getD j 0 : ℚ) <
          percentile ((degrees A).map (fun d : Nat => (d : ℚ))) (999 / 10))) := by
  rw [topSel]
  rw [List.getD_eq_getElem?_getD, List.getElem?_map,
    List.getElem?_eq_getElem hj, getD_lt _ _ hj]
  rfl

theorem argsortDesc_perm (v : List ℚ) :
    (argsortDesc v).Perm (List.range v.length) :=
  List.perm_insertionSort _ _

theorem argsortDesc_length (v : List ℚ) :
    (argsortDesc v).length = v.length := by
  have := (argsortDesc_perm v).length_eq
  simpa using this

theorem argsortDesc_sorted (v : List ℚ) :
    (argsortDesc v).Sorted (fun a b => v.getD b 0 ≤ v.getD a 0) := by
  haveI : IsTotal Nat (fun a b => v.getD b 0 ≤ v.getD a 0) :=
    ⟨fun _ _ => le_total _ _⟩
  haveI : IsTrans Nat (fun a b => v.getD b 0 ≤ v.getD a 0) :=
    ⟨fun _ _ _ h1 h2 => le_trans h2 h1⟩
  exact List.sorted_insertionSort _ _

theorem argsortDesc_desc (v : List ℚ) {p q : Nat} (hpq : p ≤ q)
    (hq : q < (argsortDesc v).length) :
    v.getD ((argsortDesc v).getD q 0) 0 ≤ v.getD ((argsortDesc v).getD p 0) 0 := by
  rcases Nat.eq_or_lt_of_le hpq with rfl | hlt
  · exact le_refl _
  · have hp : p < (argsortDesc v).length := lt_trans hlt hq
    have := (argsortDesc_sorted v).rel_get_of_lt
      (a := ⟨p, hp⟩) (b := ⟨q, hq⟩) hlt
    rw [getD_lt _ _ hp, getD_lt _ _ hq]
    exact this

/-- Success of the inner scan, characterised: the returned label is the one
at the first position of the ranking suffix holding a resolved label, and
everything before it was skipped as unresolved. -/
theorem scanLoopAux_ok {y : List Lbl} {l : Lbl} :
    ∀ {rest : List Nat} {b : Nat}, b + rest.length ≤ y.length →
      scanLoopAux y b rest = .ok l →
      ∃ p, p < rest.length ∧ y.getD (rest.getD p 0) noneLbl = l ∧
        l ≠ noneLbl ∧
        ∀ p', p' < p → y.getD (rest.getD p' 0) noneLbl = noneLbl
  | [], b, _, h => by simp [scanLoopAux] at h
  | idx :: rest, b, hb, h => by
    rw [scanLoopAux] at h
    match hg : y.get? idx with
    | Option.none => rw [hg] at h; exact absurd h (by simp)
    | Option.some ltest =>
      rw [hg] at h
      dsimp only [] at h
      have hidx : y.getD idx noneLbl = ltest := by
        simp [List.getD_eq_getElem?_getD, ← List.get?_eq_getElem?, hg]
      by_cases hn : ltest = noneLbl
      · rw [if_pos hn] at h
        have hguard : ¬ b > y.length := by
          simp only [List.length_cons] at hb
          omega
        rw [if_neg hguard] at h
        have hb' : (b + 1) + rest.length ≤ y.length := by
          simp only [List.length_cons] at hb
          omega
        obtain ⟨p, hp, hval, hne, hskip⟩ := scanLoopAux_ok hb' h
        refine ⟨p + 1, by simpa using Nat.succ_lt_succ hp, by simpa using hval,
          hne, ?_⟩
        intro p' hp'
        match p' with
        | 0 => simpa using hidx.trans hn
        | p' + 1 =>
          have : p' < p := Nat.lt_of_succ_lt_succ hp'
          simpa using hskip p' this
      · rw [if_neg hn] at h
        have : ltest = l := by
          have := h
          simp only [Except.ok.injEq] at this
          exact this
        exact ⟨0, by simp, by simpa [this] using hidx, this ▸ hn, by omega⟩

theorem except_bind_ok {ε α β : Type} {e : Except ε α} {f : α → Except ε β}
    {b : β} (h : e >>= f = .ok b) : ∃ a, e = .ok a ∧ f a = .ok b := by
  cases e with
  | error err => exact absurd h (by simp [Bind.bind, Except.bind])
  | ok a => exact ⟨a, rfl, by simpa [Bind.bind, Except.bind] using h⟩

theorem getD_map_lt {α β : Type} (f : α → β) {l : List α} {j : Nat}
    (h : j < l.length) (d : α) (d2 : β) :
    (l.map f).getD j d2 = f (l.getD j d) := by
  rw [getD_lt _ _ (show j < (l.map f).length by simpa using h),
    getD_lt _ _ h]
  simp

theorem getD_raw_lt {y : List Lbl} {j i : Nat}
    (h : y.getD j noneLbl = Lbl.raw i) : j < y.length := by
  by_contra hc
  rw [List.getD_eq_getElem?_getD, List.getElem?_eq_none (le_of_not_lt hc)] at h
  exact absurd h (by simp [noneLbl])

theorem argmaxAux_go (v : List Nat) :
    ∀ (rest : List Nat) (idx bi bv : Nat), rest = v.drop idx →
      idx ≤ v.length → bi < idx → v.getD bi 0 = bv →
      (∀ p, p < idx → v.getD p 0 ≤ bv) →
      (∀ p, p < bi → v.getD p 0 < bv) →
      argmaxAux rest idx bi bv < v.length ∧
        (∀ p, p < v.length →
          v.getD p 0 ≤ v.getD (argmaxAux rest idx bi bv) 0) ∧
        (∀ p, p < argmaxAux rest idx bi bv →
          v.getD p 0 < v.getD (argmaxAux rest idx bi bv) 0) := by
  intro rest
  induction rest with
  | nil =>
    intro idx bi bv hdrop hidx hbi hbv hble hblt
    have hlen : v.length ≤ idx := by
      rw [← List.drop_eq_nil_iff_le]
      exact hdrop.symm
    have : idx = v.length := le_antisymm hidx hlen
    subst this
    rw [argmaxAux]
    exact ⟨hbi, fun p hp => hbv ▸ hble p hp, fun p hp => hbv ▸ hblt p hp⟩
  | cons a rest ih =>
    intro idx bi bv hdrop hidx hbi hbv hble hblt
    have hlt : idx < v.length := by
      by_contra hc
      rw [List.drop_eq_nil_of_le (le_of_not_lt hc)] at hdrop
      exact absurd hdrop (by simp)
    have hcons := List.drop_eq_getElem_cons hlt
    rw [hcons] at hdrop
    injection hdrop with ha hrest
    have hgetD : v.getD idx 0 = a := by
      rw [getD_lt _ _ hlt]
      exact ha.symm ▸ rfl
    rw [argmaxAux]
    by_cases hba : bv < a
    · rw [if_pos hba]
      refine ih (idx + 1) idx a hrest (by omega) (by omega) hgetD ?_ ?_
      · intro p hp
        rcases Nat.lt_or_ge p idx with h2 | h2
        · exact le_of_lt (lt_of_le_of_lt (hble p h2) hba)
        · have : p = idx := by omega
          subst this
          rw [hgetD]
      · intro p hp
        exact lt_of_le_of_lt (hble p hp) hba
    · rw [if_neg hba]
      refine ih (idx + 1) bi bv hrest (by omega) (by omega) hbv ?_ hblt
      intro p hp
      rcases Nat.lt_or_ge p idx with h2 | h2
      · exact hble p h2
      · have : p = idx := by omega
        subst this
        rw [hgetD]
        exact le_of_not_lt hba

/-- `np.argmax` returns the first index of the maximum. -/
theorem argmaxList_spec {v : List Nat} {t : Nat}
    (h : argmaxList v = Option.some t) :
    t < v.length ∧ (∀ p, p < v.length → v.getD p 0 ≤ v.getD t 0) ∧
      ∀ p, p < t → v.getD p 0 < v.getD t 0 := by
  match v, h with
  | a :: rest, h =>
    rw [argmaxList] at h
    injection h with h
    subst h
    exact argmaxAux_go (a :: rest) rest 1 0 a rfl (by simp) (by omega) rfl
      (by intro p hp; have : p = 0 := by omega
          subst this; exact le_refl _)
      (by omega)

theorem maskDeg_getD {N yarr : List Nat} {i p : Nat}
    (hp : p < N.length) (hp2 : p < yarr.length) :
    (maskDeg N yarr i).getD p 0 =
      if yarr.getD p 0 = i then N.getD p 0 else 0 := by
  have hlen : p < (maskDeg N yarr i).length := by
    rw [maskDeg, List.length_zipWith]
    omega
  rw [getD_lt _ _ hlen, getD_lt _ _ hp, getD_lt _ _ hp2]
  simp [maskDeg, List.get_eq_getElem, List.getElem_zipWith]

/-- The top node of a cluster: when some member of cluster `i` has positive
degree, `np.argmax(N*(yarr==i))` is a member of the cluster and carries
the maximal degree among members. -/
theorem cluster_top_spec {N yarr : List Nat} {i t : Nat}
    (hlen : N.length = yarr.length)
    (ht : argmaxList (maskDeg N yarr i) = Option.some t)
    (hpos : ∃ j, j < yarr.length ∧ yarr.getD j 0 = i ∧ 0 < N.getD j 0) :
    t < yarr.length ∧ yarr.getD t 0 = i ∧
      ∀ j, j < yarr.length → yarr.getD j 0 = i → N.getD j 0 ≤ N.getD t 0 := by
  obtain ⟨htl, hmax, _⟩ := argmaxList_spec ht
  have hmlen : (maskDeg N yarr i).length = yarr.length := by
    rw [maskDeg, List.length_zipWith]
    omega
  rw [hmlen] at htl hmax
  obtain ⟨j0, hj0, hj0i, hj0pos⟩ := hpos
  have hmj0 : (maskDeg N yarr i).getD j0 0 = N.getD j0 0 := by
    rw [maskDeg_getD (by omega) hj0, if_pos hj0i]
  have hmt_pos : 0 < (maskDeg N yarr i).getD t 0 := by
    have := hmax j0 hj0
    rw [hmj0] at this
    omega
  have hti : yarr.getD t 0 = i := by
    by_contra hc
    rw [maskDeg_getD (by omega) htl, if_neg hc] at hmt_pos
    exact absurd hmt_pos (by omega)
  have hmt : (maskDeg N yarr i).getD t 0 = N.getD t 0 := by
    rw [maskDeg_getD (by omega) htl, if_pos hti]
  refine ⟨htl, hti, fun j hj hji => ?_⟩
  have := hmax j hj
  rw [maskDeg_getD (by omega) hj, if_pos hji, hmt] at this
  exact this

/-- The relabelling step for one cluster, with the argmax, selection test
and name lookup given explicitly. -/
theorem relabelCluster_eq {N : List Nat} {top : List Bool}
    {names : List String} {yarr : List Nat} {i t : Nat} {b : Bool}
    {nm : String} (y : List Lbl)
    (ht : argmaxList (maskDeg N yarr i) = Option.some t)
    (hb : top.get? t = Option.some b)
    (hnm : names.get? t = Option.some nm) :
    relabelCluster N top names yarr i y =
      .ok (y.map (fun l => if l = Lbl.raw i then
        (if b then Lbl.sym nm else noneLbl) else l)) := by
  cases b with
  | true =>
    rw [relabelCluster, ht]
    dsimp only []
    rw [hb]
    dsimp only []
    rw [hnm]
    simp
  | false =>
    rw [relabelCluster, ht]
    dsimp only []
    rw [hb]
    simp

/-- Any successful `relabelCluster` maps `raw i` to some string label
(either the placeholder or a gene symbol from `names`) and leaves
everything else unchanged. -/
theorem relabelCluster_ok_shape {N : List Nat} {top : List Bool}
    {names : List String} {yarr : List Nat} {i : Nat} {y y2 : List Lbl}
    (h : relabelCluster N top names yarr i y = .ok y2) :
    ∃ s, (s = "none" ∨ s ∈ names) ∧
      y2 = y.map (fun l => if l = Lbl.raw i then Lbl.sym s else l) := by
  rw [relabelCluster] at h
  match h1 : argmaxList (maskDeg N yarr i) with
  | Option.none => rw [h1] at h; exact absurd h (by simp)
  | Option.some t =>
    rw [h1] at h
    dsimp only [] at h
    match h2 : top.get? t with
    | Option.none => rw [h2] at h; exact absurd h (by simp)
    | Option.some true =>
      rw [h2] at h
      dsimp only [] at h
      match h3 : names.get? t with
      | Option.none => rw [h3] at h; exact absurd h (by simp)
      | Option.some nm =>
        rw [h3] at h
        dsimp only [] at h
        injection h with h
        exact ⟨nm, Or.inr (List.get?_mem h3), h.symm⟩
    | Option.some false =>
      rw [h2] at h
      dsimp only [] at h
      injection h with h
      exact ⟨"none", Or.inl rfl, h.symm⟩

/-- String labels survive the rest of the relabelling loop untouched. -/
theorem relabelFold_sym {N : List Nat} {top : List Bool}
    {names : List String} {yarr : List Nat} :
    ∀ (ids : List Nat) (y z : List Lbl),
      ids.foldlM (fun y i => relabelCluster N top names yarr i y) y
        = .ok z →
      ∀ j s, y.getD j noneLbl = Lbl.sym s → z.getD j noneLbl = Lbl.sym s
  | [], y, z, h => by
    intro j s hj
    injection h with h
    exact h ▸ hj
  | i :: ids, y, z, h => by
    intro j s hj
    rw [List.foldlM_cons] at h
    obtain ⟨y1, hstep, hrest⟩ := except_bind_ok h
    obtain ⟨s2, hs2m, rfl⟩ := relabelCluster_ok_shape hstep
    refine relabelFold_sym ids _ z hrest j s ?_
    by_cases hjl : j < y.length
    · rw [getD_map_lt _ hjl noneLbl]
      rw [hj]
      simp
    · rw [List.getD_eq_getElem?_getD,
        List.getElem?_eq_none (by simpa using le_of_not_lt hjl)]
      rw [List.getD_eq_getElem?_getD,
        List.getElem?_eq_none (le_of_not_lt hjl)] at hj
      exact hj

/-- Through the whole relabelling loop, an entry holding raw label `i`
(one of the ids in the loop) ends up renamed by cluster `i`'s step. -/
theorem relabelFold_raw {N : List Nat} {top : List Bool}
    {names : List String} {yarr : List Nat} {i t : Nat} {b : Bool}
    {nm : String}
    (ht : argmaxList (maskDeg N yarr i) = Option.some t)
    (hb : top.get? t = Option.some b)
    (hnm : names.get? t = Option.some nm) :
    ∀ (ids : List Nat) (y z : List Lbl),
      ids.foldlM (fun y i2 => relabelCluster N top names yarr i2 y) y
        = .ok z →
      i ∈ ids →
      ∀ j, y.getD j noneLbl = Lbl.raw i →
        z.getD j noneLbl = (if b then Lbl.sym nm else noneLbl)
  | [], _, _, _, hmem => absurd hmem (by simp)
  | i2 :: ids, y, z, h, hmem => by
    intro j hj
    rw [List.foldlM_cons] at h
    obtain ⟨y1, hstep, hrest⟩ := except_bind_ok h
    have hjl : j < y.length := getD_raw_lt hj
    by_cases hii : i2 = i
    · subst hii
      rw [relabelCluster_eq y ht hb hnm] at hstep
      injection hstep with hstep
      subst hstep
      have hy1 : (y.map (fun l => if l = Lbl.raw i2 then
          (if b then Lbl.sym nm else noneLbl) else l)).getD j noneLbl =
          (if b then Lbl.sym nm else noneLbl) := by
        rw [getD_map_lt _ hjl noneLbl, hj]
        simp
      cases b with
      | true =>
        simp only [if_true] at hy1 ⊢
        exact relabelFold_sym ids _ z hrest j nm hy1
      | false =>
        simp only [if_false] at hy1 ⊢
        exact relabelFold_sym ids _ z hrest j "none" hy1
    · obtain ⟨s2, hs2m, rfl⟩ := relabelCluster_ok_shape hstep
      have hmem2 : i ∈ ids := by
        rcases List.mem_cons.mp hmem with h2 | h2
        · exact absurd h2.symm hii
        · exact h2
      refine relabelFold_raw ht hb hnm ids _ z hrest hmem2 j ?_
      have hne : ¬ (Lbl.raw i = Lbl.raw i2) := by
        intro hc
        injection hc with hc
        exact hii hc.symm
      rw [getD_map_lt _ hjl noneLbl, hj, if_neg hne]

theorem propagateLoop_progress {TOM : List (List ℚ)} {y y2 : List Lbl}
    (h0 : 0 < countNone y) (hpass : assignPass TOM y = .ok y2)
    (hlt : countNone y2 < countNone y) :
    propagateLoop TOM y = propagateLoop TOM y2 := by
  rw [propagateLoop, if_pos h0, hpass]
  dsimp only []
  rw [dif_pos hlt]

theorem scanLoopAux_mem {y : List Lbl} {l : Lbl} :
    ∀ {rest : List Nat} {b : Nat}, scanLoopAux y b rest = .ok l →
      l ∈ y ∨ l = noneLbl
  | [], _, h => by simp [scanLoopAux] at h
  | idx :: rest, b, h => by
    rw [scanLoopAux] at h
    match hg : y.get? idx with
    | Option.none => rw [hg] at h; exact absurd h (by simp)
    | Option.some ltest =>
      rw [hg] at h
      dsimp only [] at h
      by_cases hn : ltest = noneLbl
      · rw [if_pos hn] at h
        by_cases hguard : b > y.length
        · rw [if_pos hguard] at h
          injection h with h
          exact Or.inr h.symm
        · rw [if_neg hguard] at h
          exact scanLoopAux_mem h
      · rw [if_neg hn] at h
        injection h with h
        exact Or.inl (h ▸ List.get?_mem hg)

theorem passStep_good {names : List String} {TOM : List (List ℚ)}
    {y y2 : List Lbl} {i : Nat}
    (hg : ∀ l ∈ y, GoodLbl names l)
    (h : passStep TOM y i = .ok y2) :
    (∀ l ∈ y2, GoodLbl names l) ∧ y2.length = y.length := by
  rw [passStep] at h
  by_cases hn : y.getD i (Lbl.raw 0) = noneLbl
  · rw [if_pos hn] at h
    match hs : scanLoop y (argsortDesc (TOM.getD i [])) with
    | .error e => rw [hs] at h; exact absurd h (by simp)
    | .ok yil =>
      rw [hs] at h
      dsimp only [] at h
      injection h with h
      subst h
      refine ⟨fun l hl => ?_, List.length_set _ _ _⟩
      rcases List.mem_or_eq_of_mem_set hl with hl | rfl
      · exact hg l hl
      · rcases scanLoopAux_mem hs with hm | hm
        · exact hg _ hm
        · exact Or.inl hm
  · rw [if_neg hn] at h
    injection h with h
    subst h
    exact ⟨hg, rfl⟩

theorem assignPassAux_good {names : List String} {TOM : List (List ℚ)} :
    ∀ (ids : List Nat) (y z : List Lbl),
      (∀ l ∈ y, GoodLbl names l) →
      assignPassAux TOM ids y = .ok z →
      (∀ l ∈ z, GoodLbl names l) ∧ z.length = y.length
  | [], y, z, hg, h => by
    injection h with h
    subst h
    exact ⟨hg, rfl⟩
  | i :: ids, y, z, hg, h => by
    rw [assignPassAux] at h
    match hs : passStep TOM y i with
    | .error e => rw [hs] at h; exact absurd h (by simp)
    | .ok y1 =>
      rw [hs] at h
      dsimp only [] at h
      obtain ⟨hg1, hl1⟩ := passStep_good hg hs
      obtain ⟨hgz, hlz⟩ := assignPassAux_good ids y1 z hg1 h
      exact ⟨hgz, hlz.trans hl1⟩

theorem propagateLoop_good {names : List String} {TOM : List (List ℚ)} :
    ∀ (n : Nat) (y z : List Lbl), countNone y ≤ n →
      (∀ l ∈ y, GoodLbl names l) →
      propagateLoop TOM y = .ok z →
      (∀ l ∈ z, GoodLbl names l) ∧ z.length = y.length := by
  intro n
  induction n with
  | zero =>
    intro y z h0 hg hp
    rw [propagateLoop_eq_self TOM y (by omega)] at hp
    injection hp with hp
    subst hp
    exact ⟨hg, rfl⟩
  | succ n ih =>
    intro y z hle hg hp
    rw [propagateLoop] at hp
    by_cases h0 : 0 < countNone y
    · rw [if_pos h0] at hp
      match hpass : assignPass TOM y with
      | .error e => rw [hpass] at hp; exact absurd hp (by simp)
      | .ok y2 =>
        rw [hpass] at hp
        dsimp only [] at hp
        obtain ⟨hg2, hl2⟩ := assignPassAux_good (List.range y.length) y y2 hg hpass
        by_cases hlt : countNone y2 < countNone y
        · rw [dif_pos hlt] at hp
          obtain ⟨hgz, hlz⟩ := ih y2 z (by omega) hg2 hp
          exact ⟨hgz, hlz.trans hl2⟩
        · rw [dif_neg hlt] at hp
          injection hp with hp
          subst hp
          exact ⟨hg2, hl2⟩
    · rw [if_neg h0] at hp
      injection hp with hp
      subst hp
      exact ⟨hg, rfl⟩

theorem relabelFold_good {N : List Nat} {top : List Bool}
    {names : List String} {yarr : List Nat} :
    ∀ (ids : List Nat) (y z : List Lbl),
      ids.foldlM (fun y i => relabelCluster N top names yarr i y) y
        = .ok z →
      (∀ l ∈ y, GoodLbl names l ∨ ∃ i2, l = Lbl.raw i2 ∧ i2 ∈ ids) →
      (∀ l ∈ z, GoodLbl names l) ∧ z.length = y.length
  | [], y, z, h, hg => by
    injection h with h
    subst h
    refine ⟨fun l hl => ?_, rfl⟩
    rcases hg l hl with hgood | ⟨i2, _, hmem⟩
    · exact hgood
    · exact absurd hmem (by simp)
  | i :: ids, y, z, h, hg => by
    rw [List.foldlM_cons] at h
    obtain ⟨y1, hstep, hrest⟩ := except_bind_ok h
    obtain ⟨s2, hs2m, rfl⟩ := relabelCluster_ok_shape hstep
    have hg1 : ∀ l ∈ y.map (fun l => if l = Lbl.raw i then Lbl.sym s2 else l),
        GoodLbl names l ∨ ∃ i2, l = Lbl.raw i2 ∧ i2 ∈ ids := by
      intro l hl
      obtain ⟨l0, hl0, rfl⟩ := List.mem_map.mp hl
      by_cases hraw : l0 = Lbl.raw i
      · rw [if_pos hraw]
        refine Or.inl ?_
        rcases hs2m with rfl | hs2m
        · exact Or.inl rfl
        · exact Or.inr ⟨s2, hs2m, rfl⟩
      · rw [if_neg hraw]
        rcases hg l0 hl0 with hgood | ⟨i2, rfl, hmem⟩
        · exact Or.inl hgood
        · refine Or.inr ⟨i2, rfl, ?_⟩
          rcases List.mem_cons.mp hmem with h2 | h2
          · exact absurd (h2 ▸ rfl) hraw
          · exact h2
    obtain ⟨hgz, hlz⟩ := relabelFold_good ids _ z hrest hg1
    exact ⟨hgz, hlz.trans (List.length_map _ _)⟩

/-! ### Claim theorems -/

/-- C9: running the label-propagation loop of `clustNetwork_Adj` on a label
vector containing no `'none'` placeholder returns that vector unchanged
(the loop guard `while del0:` is initialised with the placeholder count,
which is zero, so no pass runs). -/
theorem propagate_resolved_identity (TOM : List (List ℚ)) (y : List Lbl)
    (h : noneLbl ∉ y) : propagateLoop TOM y = Except.ok y :=
  propagateLoop_eq_self TOM y ((countNone_eq_zero y).mpr h)

/-- Witness for C9 at a concrete fully-resolved vector. -/
theorem propagate_resolved_identity_witness :
    noneLbl ∉ [Lbl.sym "geneA"] ∧
      propagateLoop [[0]] [Lbl.sym "geneA"] = Except.ok [Lbl.sym "geneA"] :=
  ⟨by decide, propagate_resolved_identity [[0]] [Lbl.sym "geneA"] (by decide)⟩

/-- C4: for every association table `df`, the matrix returned by
`makeJaccardMat df` is square of size `|unique genes| × |unique genes|`,
symmetric, and zero on the diagonal. -/
theorem makeJaccard_square_symm_diag (df : List (String × Nat))
    (M : List (List ℚ)) (h : makeJaccardMat df = .ok M) :
    M.length = (uniqueFirst (df.map Prod.fst)).length ∧
    (∀ row ∈ M, row.length = (uniqueFirst (df.map Prod.fst)).length) ∧
    (∀ i j, entry M i j = entry M j i) ∧
    (∀ i, entry M i i = 0) := by
  obtain ⟨M2, hM2, ⟨hlen, hrow⟩, he⟩ := makeJaccardMat_ok df
  rw [h] at hM2
  injection hM2 with hM2
  subst hM2
  refine ⟨hlen, hrow, fun i j => ?_, fun i => ?_⟩
  · rw [he i j, he j i]
    by_cases hc : i ≠ j ∧ i < (uniqueFirst (df.map Prod.fst)).length ∧
        j < (uniqueFirst (df.map Prod.fst)).length
    · rw [if_pos hc, if_pos (by omega), jacQ_comm]
    · rw [if_neg hc, if_neg (by omega)]
  · rw [he i i, if_neg (by omega)]

/-- Witness for C4 at the spec's concrete scenario table. -/
theorem makeJaccard_square_symm_diag_witness :
    makeJaccardMat [("g1", 1), ("g2", 1), ("g1", 2), ("g3", 2)] =
      .ok [[0, 1/2, 1/2], [1/2, 0, 0], [1/2, 0, 0]] ∧
    ([[(0 : ℚ), 1/2, 1/2], [1/2, 0, 0], [1/2, 0, 0]].length =
      (uniqueFirst ([("g1", 1), ("g2", 1), ("g1", 2), ("g3", 2)].map
        Prod.fst)).length ∧
    (∀ row ∈ [[(0 : ℚ), 1/2, 1/2], [1/2, 0, 0], [1/2, 0, 0]],
      row.length = (uniqueFirst ([("g1", 1), ("g2", 1), ("g1", 2),
        ("g3", 2)].map Prod.fst)).length) ∧
    (∀ i j, entry [[0, 1/2, 1/2], [1/2, 0, 0], [1/2, 0, 0]] i j =
      entry [[0, 1/2, 1/2], [1/2, 0, 0], [1/2, 0, 0]] j i) ∧
    (∀ i, entry [[0, 1/2, 1/2], [1/2, 0, 0], [1/2, 0, 0]] i i = 0)) :=
  ⟨by with_unfolding_all rfl,
    makeJaccard_square_symm_diag [("g1", 1), ("g2", 1), ("g1", 2), ("g3", 2)]
      [[0, 1/2, 1/2], [1/2, 0, 0], [1/2, 0, 0]] (by with_unfolding_all rfl)⟩

/-- C5: for every association table and every pair of distinct gene indices
`i ≠ j`, the `(i,j)` entry is `|Pi ∩ Pj| / |Pi ∪ Pj|` where `Pg` is the set
of publication ids of gene `g`; the union is always nonempty (each unique
gene of the table occurs with at least one publication), so the
division-by-zero case cannot arise and `makeJaccardMat` never raises
ZeroDivisionError.  On the spec's scenario table
`[(g1,p1),(g2,p1),(g1,p2),(g3,p2)]` the entries are `1/2`, `1/2`, `0`. -/
theorem makeJaccard_entry_jaccard (df : List (String × Nat)) (i j : Nat)
    (hij : i ≠ j) (hi : i < (uniqueFirst (df.map Prod.fst)).length)
    (hj : j < (uniqueFirst (df.map Prod.fst)).length) :
    (0 < ((pubSet df ((uniqueFirst (df.map Prod.fst)).getD i "")) ∪
        (pubSet df ((uniqueFirst (df.map Prod.fst)).getD j ""))).card) ∧
    (∃ M, makeJaccardMat df = .ok M ∧
      entry M i j =
        (((pubSet df ((uniqueFirst (df.map Prod.fst)).getD i "") ∩
            pubSet df ((uniqueFirst (df.map Prod.fst)).getD j "")).card : ℚ) /
          ((pubSet df ((uniqueFirst (df.map Prod.fst)).getD i "") ∪
            pubSet df ((uniqueFirst (df.map Prod.fst)).getD j "")).card : ℚ))) ∧
    (makeJaccardMat [("g1", 1), ("g2", 1), ("g1", 2), ("g3", 2)] =
        .ok [[0, 1/2, 1/2], [1/2, 0, 0], [1/2, 0, 0]] ∧
      entry [[0, 1/2, 1/2], [1/2, 0, 0], [1/2, 0, 0]] 0 1 = 1/2 ∧
      entry [[0, 1/2, 1/2], [1/2, 0, 0], [1/2, 0, 0]] 0 2 = 1/2 ∧
      entry [[0, 1/2, 1/2], [1/2, 0, 0], [1/2, 0, 0]] 1 2 = 0) := by
  refine ⟨?_, ?_, by with_unfolding_all rfl, by rfl, by rfl, by rfl⟩
  · exact Finset.card_pos.mpr
      ((pubSet_nonempty (getD_mem hi)).mono Finset.subset_union_left)
  · obtain ⟨M, hM, _, he⟩ := makeJaccardMat_ok df
    refine ⟨M, hM, ?_⟩
    rw [he i j, if_pos ⟨hij, hi, hj⟩]
    rfl

/-- Witness for C5 at the scenario table with `i = 0`, `j = 1`. -/
theorem makeJaccard_entry_jaccard_witness :
    ((0 : Nat) ≠ 1 ∧
      0 < (uniqueFirst ([("g1", 1), ("g2", 1), ("g1", 2), ("g3", 2)].map
        Prod.fst)).length ∧
      1 < (uniqueFirst ([("g1", 1), ("g2", 1), ("g1", 2), ("g3", 2)].map
        Prod.fst)).length) ∧
    0 < ((pubSet [("g1", 1), ("g2", 1), ("g1", 2), ("g3", 2)]
        ((uniqueFirst ([("g1", 1), ("g2", 1), ("g1", 2), ("g3", 2)].map
          Prod.fst)).getD 0 "")) ∪
      (pubSet [("g1", 1), ("g2", 1), ("g1", 2), ("g3", 2)]
        ((uniqueFirst ([("g1", 1), ("g2", 1), ("g1", 2), ("g3", 2)].map
          Prod.fst)).getD 1 ""))).card :=
  ⟨⟨by decide, by decide, by decide⟩,
    (makeJaccard_entry_jaccard [("g1", 1), ("g2", 1), ("g1", 2), ("g3", 2)]
      0 1 (by decide) (by decide) (by decide)).1⟩

/-- C6: with every similarity entry nonnegative (as Jaccard entries are),
each node's degree is the count of its nonzero similarity entries, a node
is selected iff its degree is strictly above the `(100-thr)`-th percentile
of the degrees and strictly below their 99.9th percentile, and the
filtered matrix handed to clustering is zero at every entry whose row or
column is a non-selected node. -/
theorem topSel_percentile_band_and_filter_zero (A : List (List ℚ)) (thr : ℚ)
    (hnn : ∀ row ∈ A, ∀ v ∈ row, 0 ≤ v) :
    (∀ j, j < (degrees A).length →
      (degrees A).getD j 0 =
        (A.filter (fun row => decide (row.getD j 0 ≠ 0))).length) ∧
    (∀ j, j < (degrees A).length →
      ((topSel A thr).getD j false = true ↔
        (percentile ((degrees A).map (fun d : Nat => (d : ℚ))) (100 - thr) <
            ((degrees A).getD j 0 : ℚ) ∧
          ((degrees A).getD j 0 : ℚ) <
            percentile ((degrees A).map (fun d : Nat => (d : ℚ))) (999 / 10)))) ∧
    (∀ i j, ((topSel A thr).getD i false = false ∨
        (topSel A thr).getD j false = false) →
      entry (filteredMat A thr) i j = 0) := by
  refine ⟨fun j hj => ?_, fun j hj => ?_, fun i j hns => ?_⟩
  · rw [degrees_getD A hj]
    congr 1
    refine List.filter_congr fun row hrow => ?_
    have hle : 0 ≤ row.getD j 0 := by
      by_cases hjr : j < row.length
      · exact hnn row hrow _ (getD_mem hjr)
      · rw [List.getD_eq_getElem?_getD, List.getElem?_eq_none
          (le_of_not_lt hjr)]
        simp
    refine decide_eq_decide.mpr ⟨fun h => ne_of_gt h,
      fun h => lt_of_le_of_ne hle (Ne.symm h)⟩
  · rw [topSel_getD A thr hj]
    simp [Bool.and_eq_true, decide_eq_true_eq]
  · rw [filteredMat, entry_zeroFilter]
    rcases hns with hns | hns
    · rw [hns]
      simp
    · rw [hns]
      simp

/-- Witness for C6 at a concrete nonnegative matrix. -/
theorem topSel_percentile_band_and_filter_zero_witness :
    (∀ row ∈ [[(0 : ℚ), 1], [1, 0]], ∀ v ∈ row, 0 ≤ v) ∧
    (∀ i j, ((topSel [[(0 : ℚ), 1], [1, 0]] 15).getD i false = false ∨
        (topSel [[(0 : ℚ), 1], [1, 0]] 15).getD j false = false) →
      entry (filteredMat [[(0 : ℚ), 1], [1, 0]] 15) i j = 0) :=
  ⟨by decide,
    (topSel_percentile_band_and_filter_zero [[(0 : ℚ), 1], [1, 0]] 15
      (by decide)).2.2⟩

/-- C2: in a propagation pass of `clustNetwork_Adj`, a node `i` holding the
placeholder whose ranking scan succeeds is assigned exactly the scan
result, and that result is the label of the first resolved node in the
descending-TOM ranking `argsort(-TOM[i,:])`: every earlier-ranked node was
unresolved, and consequently no resolved node has a strictly higher TOM
similarity to `i` than the adopted one (labels are read from the current
state of the vector, which the pass updates in place). -/
theorem scan_adopts_most_similar_resolved
    (TOM : List (List ℚ)) (y : List Lbl) (i : Nat) (l : Lbl)
    (hrow : (TOM.getD i []).length = y.length)
    (hnone : y.getD i (Lbl.raw 0) = noneLbl)
    (hscan : scanLoop y (argsortDesc (TOM.getD i [])) = .ok l) :
    passStep TOM y i = .ok (y.set i l) ∧
    ∃ b, b < (argsortDesc (TOM.getD i [])).length ∧
      y.getD ((argsortDesc (TOM.getD i [])).getD b 0) noneLbl = l ∧
      l ≠ noneLbl ∧
      (∀ b', b' < b →
        y.getD ((argsortDesc (TOM.getD i [])).getD b' 0) noneLbl = noneLbl) ∧
      ∀ m, m < y.length → y.getD m noneLbl ≠ noneLbl →
        (TOM.getD i []).getD m 0 ≤
          (TOM.getD i []).getD ((argsortDesc (TOM.getD i [])).getD b 0) 0 := by
  constructor
  · rw [passStep, if_pos hnone, hscan]
  · have hlen : 0 + (argsortDesc (TOM.getD i [])).length ≤ y.length := by
      rw [argsortDesc_length, hrow]
      omega
    obtain ⟨b, hb, hval, hne, hskip⟩ := scanLoopAux_ok hlen hscan
    refine ⟨b, hb, hval, hne, hskip, ?_⟩
    intro m hm hres
    have hmem : m ∈ argsortDesc (TOM.getD i []) :=
      (argsortDesc_perm _).mem_iff.mpr
        (List.mem_range.mpr (by rw [hrow]; exact hm))
    obtain ⟨q, hq⟩ := List.get_of_mem hmem
    have hqD : (argsortDesc (TOM.getD i [])).getD q 0 = m := by
      rw [getD_lt _ _ q.isLt, hq]
    rcases Nat.lt_or_ge q.val b with hlt | hge
    · exact absurd (hqD ▸ hskip q.val hlt) hres
    · have := argsortDesc_desc (TOM.getD i []) hge q.isLt
      rwa [hqD] at this

/-- Witness for C2: node 0 is unresolved, node 1 is its most TOM-similar
resolved neighbor, and the scan adopts node 1's label. -/
theorem scan_adopts_most_similar_resolved_witness :
    (([[(5 : ℚ), 7], [0, 0]].getD 0 []).length
        = [noneLbl, Lbl.sym "geneA"].length) ∧
    ([noneLbl, Lbl.sym "geneA"].getD 0 (Lbl.raw 0) = noneLbl) ∧
    (scanLoop [noneLbl, Lbl.sym "geneA"]
        (argsortDesc ([[(5 : ℚ), 7], [0, 0]].getD 0 []))
      = .ok (Lbl.sym "geneA")) ∧
    (passStep [[(5 : ℚ), 7], [0, 0]] [noneLbl, Lbl.sym "geneA"] 0
        = .ok ([noneLbl, Lbl.sym "geneA"].set 0 (Lbl.sym "geneA")) ∧
      ∃ b, b < (argsortDesc ([[(5 : ℚ), 7], [0, 0]].getD 0 [])).length ∧
        [noneLbl, Lbl.sym "geneA"].getD
            ((argsortDesc ([[(5 : ℚ), 7], [0, 0]].getD 0 [])).getD b 0) noneLbl
          = Lbl.sym "geneA" ∧
        Lbl.sym "geneA" ≠ noneLbl ∧
        (∀ b', b' < b →
          [noneLbl, Lbl.sym "geneA"].getD
              ((argsortDesc ([[(5 : ℚ), 7], [0, 0]].getD 0 [])).getD b' 0)
              noneLbl
            = noneLbl) ∧
        ∀ m, m < [noneLbl, Lbl.sym "geneA"].length →
          [noneLbl, Lbl.sym "geneA"].getD m noneLbl ≠ noneLbl →
          ([[(5 : ℚ), 7], [0, 0]].getD 0 []).getD m 0 ≤
            ([[(5 : ℚ), 7], [0, 0]].getD 0 []).getD
              ((argsortDesc ([[(5 : ℚ), 7], [0, 0]].getD 0 [])).getD b 0) 0) :=
  ⟨by decide, by decide, by rfl,
    scan_adopts_most_similar_resolved [[(5 : ℚ), 7], [0, 0]]
      [noneLbl, Lbl.sym "geneA"] 0 (Lbl.sym "geneA")
      (by decide) (by decide) (by rfl)⟩

/-- C7 (counterexample): the claim fails when every node carrying a raw
cluster id has degree zero.  In this run (derived from the degree vector
and selection mask of a concrete 4-node matrix with `thr=50`), raw cluster
`0` consists of node `3` alone, so per the claim its top node is node `3`,
which is not top-degree-selected, and every member should be relabelled
`'none'`.  The code instead computes `np.argmax` of the all-zero masked
degree vector, which returns node `0` (a selected node of a *different*
cluster), and labels node `3` with node 0's gene symbol `"gA"`. -/
theorem relabel_top_node_counterexample :
    relabelAll (degrees [[1, 1, 1, 0], [1, 0, 1, 0], [0, 0, 1, 0], [0, 0, 0, 0]])
        (topSel [[1, 1, 1, 0], [1, 0, 1, 0], [0, 0, 1, 0], [0, 0, 0, 0]] 50)
        ["gA", "gB", "gC", "gD"] [1, 1, 1, 0] 2 ([1, 1, 1, 0].map Lbl.raw)
      = .ok [noneLbl, noneLbl, noneLbl, Lbl.sym "gA"] ∧
    (∀ j, j < 4 → ([1, 1, 1, 0] : List Nat).getD j 0 = 0 → j = 3) ∧
    (topSel [[1, 1, 1, 0], [1, 0, 1, 0], [0, 0, 1, 0], [0, 0, 0, 0]] 50).getD
        3 false = false ∧
    Lbl.sym "gA" ≠ noneLbl := by
  refine ⟨by with_unfolding_all rfl, by decide, by with_unfolding_all rfl,
    by decide⟩

/-- C7 (amended): for each raw cluster id `i` in `0..k-1`, the code's top
node is `t = np.argmax(N*(yarr==i))`; *provided some node carrying label
`i` has positive degree*, `t` carries label `i` and has the maximal degree
among the nodes carrying label `i` (ties resolved to the first index), and
every node of the cluster is relabelled with `names[t]` if `t` is
top-degree-selected and with the placeholder `'none'` otherwise.  (Without
the positive-degree proviso the argmax degenerates to index `0`, which may
lie outside the cluster — the counterexample.) -/
theorem relabel_cluster_top_amended
    (N yarr : List Nat) (top : List Bool) (names : List String)
    (k i t : Nat) (b : Bool) (nm : String) (z : List Lbl)
    (hlen : N.length = yarr.length)
    (hik : i < k)
    (ht : argmaxList (maskDeg N yarr i) = Option.some t)
    (hb : top.get? t = Option.some b)
    (hnm : names.get? t = Option.some nm)
    (hfold : relabelAll N top names yarr k (yarr.map Lbl.raw) = .ok z) :
    ((∃ j, j < yarr.length ∧ yarr.getD j 0 = i ∧ 0 < N.getD j 0) →
      (yarr.getD t 0 = i ∧
        ∀ j, j < yarr.length → yarr.getD j 0 = i →
          N.getD j 0 ≤ N.getD t 0)) ∧
    ∀ j, j < yarr.length → yarr.getD j 0 = i →
      z.getD j noneLbl = (if b then Lbl.sym nm else noneLbl) := by
  constructor
  · intro hpos
    obtain ⟨_, hti, hmax⟩ := cluster_top_spec hlen ht hpos
    exact ⟨hti, hmax⟩
  · intro j hj hji
    refine relabelFold_raw ht hb hnm (List.range k) (yarr.map Lbl.raw) z
      hfold (List.mem_range.mpr hik) j ?_
    rw [getD_map_lt _ hj 0, hji]

/-- Witness for the amended C7: cluster `1` of the counterexample's run has
members of positive degree; its top node is node `2` (degree 3), which is
not selected, so all of cluster 1 is relabelled `'none'`. -/
theorem relabel_cluster_top_amended_witness :
    ((degrees [[1, 1, 1, 0], [1, 0, 1, 0], [0, 0, 1, 0], [0, 0, 0, 0]]).length
        = ([1, 1, 1, 0] : List Nat).length) ∧
    (∀ j, j < ([1, 1, 1, 0] : List Nat).length →
      ([1, 1, 1, 0] : List Nat).getD j 0 = 1 →
      [noneLbl, noneLbl, noneLbl, Lbl.sym "gA"].getD j noneLbl =
        (if false then Lbl.sym "gC" else noneLbl)) :=
  ⟨by with_unfolding_all rfl,
    (relabel_cluster_top_amended
      (degrees [[1, 1, 1, 0], [1, 0, 1, 0], [0, 0, 1, 0], [0, 0, 0, 0]])
      [1, 1, 1, 0]
      (topSel [[1, 1, 1, 0], [1, 0, 1, 0], [0, 0, 1, 0], [0, 0, 0, 0]] 50)
      ["gA", "gB", "gC", "gD"] 2 1 2 false "gC"
      [noneLbl, noneLbl, noneLbl, Lbl.sym "gA"]
      (by with_unfolding_all rfl) (by omega) (by with_unfolding_all rfl)
      (by with_unfolding_all rfl) (by rfl)
      (by with_unfolding_all rfl)).2⟩

/-- C10: under the pluggable clustering contract (one integer label per
row of the filtered matrix, each in `0..k-1`), whenever `clustNetwork_Adj`
returns a value, the returned label vector has exactly one entry per row
of `A`, and every entry is either a gene symbol from `names` or the
placeholder `'none'`; no raw integer cluster id survives. -/
theorem clustNetwork_output_wellformed
    (fitPredict : List (List ℚ) → List Nat) (A TOM : List (List ℚ))
    (names : List String) (thr : ℚ) (k : Nat) (z : List Lbl)
    (hlen : (fitPredict (filteredMat A thr)).length = A.length)
    (hlab : ∀ l ∈ fitPredict (filteredMat A thr), l < k)
    (hok : clustNetwork_Adj fitPredict A TOM names thr k = .ok z) :
    z.length = A.length ∧
      ∀ lb ∈ z, lb = noneLbl ∨ ∃ s ∈ names, lb = Lbl.sym s := by
  have hbody : clustNetwork_Adj fitPredict A TOM names thr k =
      match relabelAll (degrees A) (topSel A thr) names
          (fitPredict (filteredMat A thr)) k
          ((fitPredict (filteredMat A thr)).map Lbl.raw) with
      | .error e => .error e
      | .ok y1 => propagateLoop TOM y1 := rfl
  rw [hbody] at hok
  match hrel : relabelAll (degrees A) (topSel A thr) names
      (fitPredict (filteredMat A thr)) k
      ((fitPredict (filteredMat A thr)).map Lbl.raw) with
  | .error e => rw [hrel] at hok; exact absurd hok (by simp)
  | .ok y1 =>
    rw [hrel] at hok
    dsimp only [] at hok
    have hg0 : ∀ l ∈ (fitPredict (filteredMat A thr)).map Lbl.raw,
        GoodLbl names l ∨ ∃ i2, l = Lbl.raw i2 ∧ i2 ∈ List.range k := by
      intro l hl
      obtain ⟨l0, hl0, rfl⟩ := List.mem_map.mp hl
      exact Or.inr ⟨l0, rfl, List.mem_range.mpr (hlab l0 hl0)⟩
    obtain ⟨hg1, hl1⟩ := relabelFold_good (List.range k) _ y1 hrel hg0
    obtain ⟨hgz, hlz⟩ :=
      propagateLoop_good (countNone y1) y1 z (le_refl _) hg1 hok
    refine ⟨?_, hgz⟩
    rw [hlz, hl1, List.length_map, hlen]

/-- Concrete full run of `clustNetwork_Adj` used by the C10 witness. -/
theorem clustNetwork_eval_example :
    clustNetwork_Adj (fun _ => [1, 1, 1, 0])
        [[1, 1, 1, 0], [1, 0, 1, 0], [0, 0, 1, 0], [0, 0, 0, 0]]
        [[0, 0, 0, 0], [0, 0, 0, 0], [0, 0, 0, 0], [0, 0, 0, 0]]
        ["gA", "gB", "gC", "gD"] 50 2 =
      .ok [Lbl.sym "gA", Lbl.sym "gA", Lbl.sym "gA", Lbl.sym "gA"] := by
  have hrel : relabelAll
      (degrees [[1, 1, 1, 0], [1, 0, 1, 0], [0, 0, 1, 0], [0, 0, 0, 0]])
      (topSel [[1, 1, 1, 0], [1, 0, 1, 0], [0, 0, 1, 0], [0, 0, 0, 0]] 50)
      ["gA", "gB", "gC", "gD"]
      ((fun _ : List (List ℚ) => [1, 1, 1, 0])
        (filteredMat [[1, 1, 1, 0], [1, 0, 1, 0], [0, 0, 1, 0], [0, 0, 0, 0]]
          50)) 2
      (((fun _ : List (List ℚ) => [1, 1, 1, 0])
        (filteredMat [[1, 1, 1, 0], [1, 0, 1, 0], [0, 0, 1, 0], [0, 0, 0, 0]]
          50)).map Lbl.raw)
      = .ok [noneLbl, noneLbl, noneLbl, Lbl.sym "gA"] := by
    with_unfolding_all rfl
  have hbody : clustNetwork_Adj (fun _ => [1, 1, 1, 0])
      [[1, 1, 1, 0], [1, 0, 1, 0], [0, 0, 1, 0], [0, 0, 0, 0]]
      [[0, 0, 0, 0], [0, 0, 0, 0], [0, 0, 0, 0], [0, 0, 0, 0]]
      ["gA", "gB", "gC", "gD"] 50 2 =
      match relabelAll
          (degrees [[1, 1, 1, 0], [1, 0, 1, 0], [0, 0, 1, 0], [0, 0, 0, 0]])
          (topSel [[1, 1, 1, 0], [1, 0, 1, 0], [0, 0, 1, 0], [0, 0, 0, 0]] 50)
          ["gA", "gB", "gC", "gD"]
          ((fun _ : List (List ℚ) => [1, 1, 1, 0])
            (filteredMat
              [[1, 1, 1, 0], [1, 0, 1, 0], [0, 0, 1, 0], [0, 0, 0, 0]] 50)) 2
          (((fun _ : List (List ℚ) => [1, 1, 1, 0])
            (filteredMat
              [[1, 1, 1, 0], [1, 0, 1, 0], [0, 0, 1, 0], [0, 0, 0, 0]] 50)).map
            Lbl.raw) with
      | .error e => .error e
      | .ok y1 => propagateLoop
          [[0, 0, 0, 0], [0, 0, 0, 0], [0, 0, 0, 0], [0, 0, 0, 0]] y1 := rfl
  rw [hbody, hrel]
  dsimp only []
  have hpass : assignPass [[0, 0, 0, 0], [0, 0, 0, 0], [0, 0, 0, 0],
      [0, 0, 0, 0]] [noneLbl, noneLbl, noneLbl, Lbl.sym "gA"] =
      .ok [Lbl.sym "gA", Lbl.sym "gA", Lbl.sym "gA", Lbl.sym "gA"] := by rfl
  rw [propagateLoop_progress (by decide) hpass (by decide)]
  exact propagateLoop_eq_self _ _ (by decide)

/-- Witness for C10 at the concrete full run. -/
theorem clustNetwork_output_wellformed_witness :
    (((fun _ : List (List ℚ) => [1, 1, 1, 0])
        (filteredMat [[1, 1, 1, 0], [1, 0, 1, 0], [0, 0, 1, 0], [0, 0, 0, 0]]
          50)).length
      = ([[(1 : ℚ), 1, 1, 0], [1, 0, 1, 0], [0, 0, 1, 0],
          [0, 0, 0, 0]] : List (List ℚ)).length) ∧
    (∀ l ∈ (fun _ : List (List ℚ) => [1, 1, 1, 0])
        (filteredMat [[1, 1, 1, 0], [1, 0, 1, 0], [0, 0, 1, 0], [0, 0, 0, 0]]
          50), l < 2) ∧
    ([Lbl.sym "gA", Lbl.sym "gA", Lbl.sym "gA", Lbl.sym "gA"].length
        = ([[(1 : ℚ), 1, 1, 0], [1, 0, 1, 0], [0, 0, 1, 0],
            [0, 0, 0, 0]] : List (List ℚ)).length ∧
      ∀ lb ∈ [Lbl.sym "gA", Lbl.sym "gA", Lbl.sym "gA", Lbl.sym "gA"],
        lb = noneLbl ∨ ∃ s ∈ ["gA", "gB", "gC", "gD"], lb = Lbl.sym s) :=
  ⟨by decide, by decide,
    clustNetwork_output_wellformed (fun _ => [1, 1, 1, 0])
      [[1, 1, 1, 0], [1, 0, 1, 0], [0, 0, 1, 0], [0, 0, 0, 0]]
      [[0, 0, 0, 0], [0, 0, 0, 0], [0, 0, 0, 0], [0, 0, 0, 0]]
      ["gA", "gB", "gC", "gD"] 50 2
      [Lbl.sym "gA", Lbl.sym "gA", Lbl.sym "gA", Lbl.sym "gA"]
      (by decide) (by decide) clustNetwork_eval_example⟩

/-- C1 (code bug demonstration): on the spec's stall scenario — a single
fully disconnected node (all TOM similarities `0`) that clustering left
unresolved — the propagation loop of `clustNetwork_Adj` does not report a
stall: it raises IndexError by reading `sortlabs[1]` past the end of the
length-1 ranking.  No stall error exists in the code; the `if b>len(y)`
guard is unreachable because the read at `b=len(y)` fails first. -/
theorem propagate_stall_scenario_index_error :
    propagateLoop [[0]] [noneLbl] = Except.error PyError.indexError := by
  rw [propagateLoop]
  rfl

/-- C3 (code bug demonstration): when every label is `'none'` the
descending-TOM scan exhausts the ranking without finding a resolved
neighbor; instead of keeping the placeholder, the code reads past the end
of the ranking array (IndexError), because the exhaustion guard compares
`b>len(y)` while the failing read already happens at `b=len(y)`. -/
theorem scan_exhaustion_reads_out_of_bounds :
    scanLoop [noneLbl] (argsortDesc [0]) = Except.error PyError.indexError := rfl

/-- C8 (counterexample): on an association table with zero unique genes,
`makeJaccardMat` raises no error at all — it silently returns the empty
`0×0` matrix, rather than surfacing an `EmptyInputError` (no such error
kind exists anywhere in the code). -/
theorem makeJaccardMat_empty_counterexample :
    makeJaccardMat ([] : List (String × Nat)) =
      Except.ok ([] : List (List ℚ)) := rfl

/-- C8 (amended): given an association table with zero unique genes,
`makeJaccardMat` succeeds and returns the empty `0×0` matrix; no
`EmptyInputError` is surfaced. -/
theorem makeJaccardMat_empty_amended (df : List (String × Nat))
    (h : df.map Prod.fst = []) : makeJaccardMat df = Except.ok [] := by
  rw [List.map_eq_nil_iff] at h
  subst h
  rfl

/-- Witness for the amended C8 at the empty table. -/
theorem makeJaccardMat_empty_amended_witness :
    ([] : List (String × Nat)).map Prod.fst = [] ∧
      makeJaccardMat ([] : List (String × Nat)) = Except.ok [] :=
  ⟨rfl, makeJaccardMat_empty_amended [] rfl⟩
